import Mathlib

/-!
Verification of the MyPaint tile compositing / brush-rendering core.

The development shallowly embeds the pixel-level C++ routines of the
repository (mypaintlib tile functions and `brushmodes.hpp`) as executable
Lean functions over `Nat`, and proves the spec's testable properties about
them.  Machine integers are modelled as `Nat`; for every routine the
arithmetic is shown (or hypothesised, matching the working-encoding
domain `[0, 32768]` documented in the spec) to stay below the `uint32`
and `uint16` wrap thresholds of the original code, so no modular
reduction appears in the definitions.
-/

namespace MyPaintCore

/-- Fixed-point one: `1<<15`, representing 1.0. -/
def fix15_one : Nat := 32768

/-- Tile edge length (`TILE_SIZE` in the C sources). -/
def TILE_SIZE : Nat := 64

/-- A working-encoding pixel: 15-bit fixed-point RGBA, colors premultiplied.
The same structure doubles as an 8-bit storage-encoding pixel (values then
range over `[0,255]`, straight alpha). -/
structure Px where
  r : Nat
  g : Nat
  b : Nat
  a : Nat
deriving Repr, DecidableEq

/-! ## Brush dab renderer (`brushmodes.hpp`)

The three masked paint operations share one run-length traversal:
a run of nonzero mask values paints consecutive pixels, a zero mask value
followed by a skip count `s` advances the `rgba` pointer by `s` `uint16`
cells (4 cells per pixel), and a zero skip count terminates.  Tiles are
flat `List Nat` buffers in the C element order `r,g,b,a,r,g,b,a,...`;
the traversal below reproduces the pointer walk with `take`/`drop`.
If the mask list is exhausted without a terminator, or a run extends past
the end of the buffer, the C code would read out of bounds (a caller
contract violation); the model simply stops and leaves the rest
unchanged. -/

def rleTraverse (f : Nat → List Nat → List Nat) : List Nat → List Nat → List Nat
  | [], rgba => rgba
  | 0 :: [], rgba => rgba
  | 0 :: 0 :: _, rgba => rgba
  | 0 :: (s+1) :: rest, rgba =>
      rgba.take (s+1) ++ rleTraverse f rest (rgba.drop (s+1))
  | (m+1) :: rest, rgba =>
      f (m+1) (rgba.take 4) ++ rleTraverse f rest (rgba.drop 4)

/-- Per-pixel step of `draw_dab_pixels_BlendMode_Normal`.  On a
four-element pixel `[r,g,b,a]` it performs the premultiplied source-over
step of the C code; any other shape (an out-of-contract partial pixel at
the end of the buffer) is left unchanged. -/
def normalPix (cr cg cb opacity : Nat) (m : Nat) (px : List Nat) : List Nat :=
  match px with
  | [r, g, b, a] =>
      let opa_a := m * opacity / fix15_one
      let opa_b := fix15_one - opa_a
      [(opa_a * cr + opa_b * r) / fix15_one,
       (opa_a * cg + opa_b * g) / fix15_one,
       (opa_a * cb + opa_b * b) / fix15_one,
       opa_a + opa_b * a / fix15_one]
  | px => px

/-- Per-pixel step of `draw_dab_pixels_BlendMode_Normal_and_Eraser`:
the top alpha is additionally scaled by the source alpha `ca` (after
`opa_b` has been computed from the unscaled value, exactly as in C). -/
def eraserPix (cr cg cb ca opacity : Nat) (m : Nat) (px : List Nat) : List Nat :=
  match px with
  | [r, g, b, a] =>
      let opa_a0 := m * opacity / fix15_one
      let opa_b := fix15_one - opa_a0
      let opa_a := opa_a0 * ca / fix15_one
      [(opa_a * cr + opa_b * r) / fix15_one,
       (opa_a * cg + opa_b * g) / fix15_one,
       (opa_a * cb + opa_b * b) / fix15_one,
       opa_a + opa_b * a / fix15_one]
  | px => px

/-- Per-pixel step of `draw_dab_pixels_BlendMode_LockAlpha`: the top
alpha is scaled by the destination's own alpha, only the color cells are
written and the alpha cell is left untouched. -/
def lockAlphaPix (cr cg cb opacity : Nat) (m : Nat) (px : List Nat) : List Nat :=
  match px with
  | [r, g, b, a] =>
      let opa_a0 := m * opacity / fix15_one
      let opa_b := fix15_one - opa_a0
      let opa_a := opa_a0 * a / fix15_one
      [(opa_a * cr + opa_b * r) / fix15_one,
       (opa_a * cg + opa_b * g) / fix15_one,
       (opa_a * cb + opa_b * b) / fix15_one,
       a]
  | px => px

def draw_dab_pixels_BlendMode_Normal (mask rgba : List Nat)
    (color_r color_g color_b opacity : Nat) : List Nat :=
  rleTraverse (normalPix color_r color_g color_b opacity) mask rgba

def draw_dab_pixels_BlendMode_Normal_and_Eraser (mask rgba : List Nat)
    (color_r color_g color_b color_a opacity : Nat) : List Nat :=
  rleTraverse (eraserPix color_r color_g color_b color_a opacity) mask rgba

def draw_dab_pixels_BlendMode_LockAlpha (mask rgba : List Nat)
    (color_r color_g color_b opacity : Nat) : List Nat :=
  rleTraverse (lockAlphaPix color_r color_g color_b opacity) mask rgba

/-- Structural well-formedness of an in-memory RLE mask, as produced by
the dab renderer: every skip count advances a whole number of pixels
(`uint16` skip cells come in groups of 4, one pixel each; the spec
describes skips as pixel counts). -/
def maskAligned : List Nat → Bool
  | [] => true
  | 0 :: [] => true
  | 0 :: 0 :: _ => true
  | 0 :: (s+1) :: rest => ((s+1) % 4 == 0) && maskAligned rest
  | (_+1) :: rest => maskAligned rest

/-- The working-encoding invariant of the spec, checked over a flat
buffer four cells at a time: `R,G,B <= A <= 32768` for every pixel and
the buffer length is a multiple of 4. -/
def tileInv : List Nat → Bool
  | [] => true
  | r :: g :: b :: a :: rest =>
      decide (r ≤ a) && decide (g ≤ a) && decide (b ≤ a) &&
      decide (a ≤ fix15_one) && tileInv rest
  | _ => false

/-! ## Tile compositing engine (`tile_composite_data`)

The engine converts the caller's opacity to fixed point
(`fix15_short_clamp(src_opacity * fix15_one)`, a float computation whose
result is the `Nat` argument `opac` below), returns immediately when it
is zero, and otherwise hands the two buffers to the blend-mode engine
instantiated from `compositing.hpp`/`blendmodes.hpp` (headers that are
not part of these sources; they are universally quantified here as the
`engineRGBA`/`engineRGBX` strategy parameters, one per
`dst_has_alpha` policy). -/

def tile_composite_data
    (engineRGBA engineRGBX : List Nat → List Nat → Nat → List Nat)
    (src dst : List Nat) (dst_has_alpha : Bool) (opac : Nat) : List Nat :=
  if opac = 0 then dst
  else if dst_has_alpha then engineRGBA src dst opac
  else engineRGBX src dst opac

/-! ## Mipmap downscaler (`tile_downscale_rgba16`)

Tiles are modelled as functions from row, column and channel index to
the stored value.  The loop writes each cell of the destination quadrant
`[dst_y, dst_y+32) x [dst_x, dst_x+32)` exactly once with the sum of the
four quarter-values of the corresponding 2x2 source block (each term
individually truncated, as in the C expression), and leaves every other
destination cell unchanged. -/

def tile_downscale_rgba16 (src dst : Nat → Nat → Nat → Nat)
    (dst_x dst_y : Nat) : Nat → Nat → Nat → Nat :=
  fun y x c =>
    if dst_y ≤ y ∧ y < dst_y + TILE_SIZE / 2 ∧
       dst_x ≤ x ∧ x < dst_x + TILE_SIZE / 2 then
      src (2*(y - dst_y)) (2*(x - dst_x)) c / 4 +
      src (2*(y - dst_y)) (2*(x - dst_x) + 1) c / 4 +
      src (2*(y - dst_y) + 1) (2*(x - dst_x)) c / 4 +
      src (2*(y - dst_y) + 1) (2*(x - dst_x) + 1) c / 4
    else dst y x c

/-! ## Flatten / unflatten transform (`tile_rgba2flat`, `tile_flat2rgba`)

These iterate over the `TILE_SIZE*TILE_SIZE` pixels in order; tiles are
modelled as `List Px` and the loops as `zipWith` of the per-pixel body.
The background's alpha cell is ignored, exactly as in C. -/

/-- Per-pixel body of `tile_rgba2flat`:
`dst.color += (1<<15 - dst.alpha) * bg.color / 1<<15`, alpha unmodified. -/
def rgba2flatPix (d bgp : Px) : Px :=
  let one_minus_top_alpha := fix15_one - d.a
  { r := d.r + one_minus_top_alpha * bgp.r / fix15_one,
    g := d.g + one_minus_top_alpha * bgp.g / fix15_one,
    b := d.b + one_minus_top_alpha * bgp.b / fix15_one,
    a := d.a }

def tile_rgba2flat (dst bg : List Px) : List Px :=
  List.zipWith rgba2flatPix dst bg

/-- The minimal alpha that can explain one channel's deviation of the
flat color `dc` from the background `bgc` (the per-channel requirement of
`tile_flat2rgba`, signed branches translated on `Nat`). -/
def minAlphaReq (dc bgc : Nat) : Nat :=
  if bgc < dc then (dc - bgc) * fix15_one / (fix15_one - bgc)
  else if dc < bgc then (bgc - dc) * fix15_one / bgc
  else 0

/-- The final-alpha loop of `tile_flat2rgba`: starting from 0, each of
the three channels maximises with its requirement and (inside the loop,
as in C) with the pixel's pre-existing alpha. -/
def flat2rgbaAlpha (d bgp : Px) : Nat :=
  let fa1 := max (max 0 (minAlphaReq d.r bgp.r)) d.a
  let fa2 := max (max fa1 (minAlphaReq d.g bgp.g)) d.a
  max (max fa2 (minAlphaReq d.b bgp.b)) d.a

/-- The C `CLAMP(x, lo, hi)` macro. -/
def clampC (x lo hi : Int) : Int :=
  if hi < x then hi else if x < lo then lo else x

/-- Per-pixel body of `tile_flat2rgba`: compute the final alpha, then
back-solve each premultiplied channel as
`bg*final_alpha/1<<15 + (dst - bg)` clamped to `[0, final_alpha]`;
if the final alpha is zero the color is forced to zero. -/
def flat2rgbaPix (d bgp : Px) : Px :=
  let fa := flat2rgbaAlpha d bgp
  if 0 < fa then
    { r := (clampC ((bgp.r * fa / fix15_one : Nat) + (d.r : Int) - bgp.r) 0 fa).toNat,
      g := (clampC ((bgp.g * fa / fix15_one : Nat) + (d.g : Int) - bgp.g) 0 fa).toNat,
      b := (clampC ((bgp.b * fa / fix15_one : Nat) + (d.b : Int) - bgp.b) 0 fa).toNat,
      a := fa }
  else
    { r := 0, g := 0, b := 0, a := fa }

def tile_flat2rgba (dst bg : List Px) : List Px :=
  List.zipWith flat2rgbaPix dst bg

/-! ## Perceptual stroke-change detector (`tile_perceptual_change_strokemap`) -/

/-- Per-pixel body: cross-multiplied color change plus the three
threshold tests of the C code; result is the written byte (1 or 0). -/
def strokemapPix (pa pb : Px) : Nat :=
  let color_change : Nat :=
    ((pb.r * pa.a / fix15_one : Nat) - (pa.r * pb.a / fix15_one : Nat) : Int).natAbs +
    ((pb.g * pa.a / fix15_one : Nat) - (pa.g * pb.a / fix15_one : Nat) : Int).natAbs +
    ((pb.b * pa.a / fix15_one : Nat) - (pa.b * pb.a / fix15_one : Nat) : Int).natAbs
  let alpha_diff : Int := (pb.a : Int) - (pa.a : Int)
  let is_perceptual_color_change := max pa.a pb.a / 16 < color_change
  let is_perceptual_alpha_increase := (8192 : Int) < alpha_diff
  let is_big_relative_alpha_increase :=
    (512 : Int) < alpha_diff ∧ ((pa.a / 2 : Nat) : Int) < alpha_diff
  if is_perceptual_alpha_increase ∨ is_big_relative_alpha_increase ∨
     is_perceptual_color_change then 1 else 0

def tile_perceptual_change_strokemap (a b : List Px) : List Nat :=
  List.zipWith strokemapPix a b

/-! ## Bit-depth converters -/

/-- Per-pixel body of `tile_convert_rgba8_to_rgba16`: scale each 8-bit
channel to the 15-bit domain with rounding, then premultiply the colors
by alpha with rounding. -/
def pix8to16 (p : Px) : Px :=
  let r := (p.r * 32768 + 127) / 255
  let g := (p.g * 32768 + 127) / 255
  let b := (p.b * 32768 + 127) / 255
  let a := (p.a * 32768 + 127) / 255
  { r := (r * a + 16384) / 32768,
    g := (g * a + 16384) / 32768,
    b := (b * a + 16384) / 32768,
    a := a }

def tile_convert_rgba8_to_rgba16 (t : List Px) : List Px :=
  t.map pix8to16

/-- Per-pixel body of `tile_convert_rgba16_to_rgba8`: un-premultiply by
alpha with rounding (zero alpha maps the colors to zero), then scale to
the 8-bit domain adding the dithering noise before truncating.  The
three colors share one noise sample `add_c`; alpha uses its own
`add_a`. -/
def pix16to8 (add_c add_a : Nat) (p : Px) : Px :=
  let r := if p.a ≠ 0 then (p.r * 32768 + p.a / 2) / p.a else 0
  let g := if p.a ≠ 0 then (p.g * 32768 + p.a / 2) / p.a else 0
  let b := if p.a ≠ 0 then (p.b * 32768 + p.a / 2) / p.a else 0
  { r := (r * 255 + add_c) / 32768,
    g := (g * 255 + add_c) / 32768,
    b := (b * 255 + add_c) / 32768,
    a := (p.a * 255 + add_a) / 32768 }

/-- The pixel loop of `tile_convert_rgba16_to_rgba8`: pixel `i` consumes
the two consecutive noise-table entries `noise (2*i)` and
`noise (2*i+1)`.  The table itself (`dithering_noise`, filled lazily by
`precalculate_dithering_noise_if_required` with values in the band
`[0.03*32768, 0.97*32768]`) is passed in as the function `noise`. -/
def conv16to8Go (noise : Nat → Nat) : Nat → List Px → List Px
  | _, [] => []
  | idx, p :: ps =>
      pix16to8 (noise (2*idx)) (noise (2*idx + 1)) p ::
      conv16to8Go noise (idx + 1) ps

def tile_convert_rgba16_to_rgba8 (noise : Nat → Nat) (t : List Px) : List Px :=
  conv16to8Go noise 0 t

/-! ## Helper lemmas -/

theorem conv16to8Go_length (noise : Nat → Nat) :
    ∀ (k : Nat) (l : List Px), (conv16to8Go noise k l).length = l.length := by
  intro k l
  induction l generalizing k with
  | nil => rfl
  | cons p ps ih => simp [conv16to8Go, ih]

theorem conv16to8Go_getElem? (noise : Nat → Nat) :
    ∀ (k : Nat) (l : List Px) (i : Nat),
      (conv16to8Go noise k l)[i]? =
        (l[i]?).map (fun p => pix16to8 (noise (2*(k+i))) (noise (2*(k+i) + 1)) p) := by
  intro k l
  induction l generalizing k with
  | nil => intro i; simp [conv16to8Go]
  | cons p ps ih =>
      intro i
      cases i with
      | zero => simp [conv16to8Go]
      | succ j =>
          simp only [conv16to8Go, List.getElem?_cons_succ, ih (k+1) j]
          have h2 : k + 1 + j = k + (j + 1) := by omega
          rw [h2]

/-! ## Theorems -/

/-- C1: for every blend-mode strategy, source tile, destination tile and
`dst_has_alpha` flag, compositing with an opacity whose fixed-point
conversion clamps/rounds to zero returns the destination unchanged
(bit-identical no-op). -/
theorem c1_composite_opacity_zero_noop
    (engineRGBA engineRGBX : List Nat → List Nat → Nat → List Nat)
    (src dst : List Nat) (dst_has_alpha : Bool) (opac : Nat)
    (h : opac = 0) :
    tile_composite_data engineRGBA engineRGBX src dst dst_has_alpha opac = dst := by
  simp [tile_composite_data, h]

theorem c1_composite_opacity_zero_noop_witness :
    tile_composite_data (fun s _ _ => s) (fun s _ _ => s)
      [1, 2, 3, 4] [5, 6, 7, 8] true 0 = [5, 6, 7, 8] :=
  c1_composite_opacity_zero_noop _ _ _ _ _ _ rfl

/-- C2 counterexample: downscaling the uniform tile of channel value 1
does not give back 1: each of the four box terms truncates to `1/4 = 0`,
so the written quadrant holds 0.  This refutes the claim that the output
equals `C` exactly for every `C` in `[0, 32768]`. -/
theorem c2_downscale_uniform_counterexample :
    ¬ (tile_downscale_rgba16 (fun _ _ _ => 1) (fun _ _ _ => 0) 0 0 0 0 0 = 1) := by
  simp [tile_downscale_rgba16, TILE_SIZE]

/-- C2 amended: downscaling a tile all of whose cells hold the constant
`C ≤ 32768` writes `4 * (C / 4)` (that is, `C` rounded down to a
multiple of 4; equal to `C` exactly when `4 ∣ C`) at every cell of the
destination quadrant. -/
theorem c2_downscale_uniform_amended
    (C dst_x dst_y y x c : Nat) (dst : Nat → Nat → Nat → Nat)
    (hC : C ≤ 32768)
    (hy1 : dst_y ≤ y) (hy2 : y < dst_y + TILE_SIZE / 2)
    (hx1 : dst_x ≤ x) (hx2 : x < dst_x + TILE_SIZE / 2) :
    tile_downscale_rgba16 (fun _ _ _ => C) dst dst_x dst_y y x c = 4 * (C / 4) := by
  simp only [tile_downscale_rgba16]
  rw [if_pos ⟨hy1, hy2, hx1, hx2⟩]
  omega

theorem c2_downscale_uniform_amended_witness :
    tile_downscale_rgba16 (fun _ _ _ => 7) (fun _ _ _ => 0) 1 2 2 1 3 = 4 := by
  have h := c2_downscale_uniform_amended 7 1 2 2 1 3 (fun _ _ _ => 0)
    (by omega) (by omega) (by decide) (by omega) (by decide)
  simpa using h

/-- C7: the normal-and-eraser dab with full source alpha
(`color_a = 32768`, i.e. 1.0) coincides with the normal dab on every
mask, destination buffer, paint color and opacity. -/
theorem c7_eraser_fullalpha_eq_normal
    (mask rgba : List Nat) (color_r color_g color_b opacity : Nat) :
    draw_dab_pixels_BlendMode_Normal_and_Eraser mask rgba
        color_r color_g color_b 32768 opacity =
    draw_dab_pixels_BlendMode_Normal mask rgba color_r color_g color_b opacity := by
  unfold draw_dab_pixels_BlendMode_Normal_and_Eraser draw_dab_pixels_BlendMode_Normal
  have hfun : eraserPix color_r color_g color_b 32768 opacity =
      normalPix color_r color_g color_b opacity := by
    funext m px
    unfold eraserPix normalPix
    match px with
    | [r, g, b, a] =>
        simp only [fix15_one]
        rw [Nat.mul_div_cancel _ (by norm_num : (0:Nat) < 32768)]
    | [] => rfl
    | [x] => rfl
    | [x, y] => rfl
    | [x, y, z] => rfl
    | x :: y :: z :: w :: v :: t => rfl
  rw [hfun]

theorem strokemapPix_self (p : Px) : strokemapPix p p = 0 := by
  unfold strokemapPix
  rw [if_neg]
  push_neg
  refine ⟨by omega, fun h => absurd h (by omega), ?_⟩
  simp only [sub_self, Int.natAbs_zero]
  omega

/-- C8: on two pixelwise-identical snapshots the stroke-change detector
writes 0 at every pixel. -/
theorem c8_strokemap_identical_zero (t : List Px) :
    tile_perceptual_change_strokemap t t = List.replicate t.length 0 := by
  unfold tile_perceptual_change_strokemap
  induction t with
  | nil => rfl
  | cons p ps ih => simp [List.zipWith, strokemapPix_self, ih, List.replicate]

/-- C9: in the 16-bit-to-8-bit conversion, every input pixel with alpha 0
has its output color channels equal to 0 (the un-premultiply division is
never performed there and the branch maps color to 0), for every noise
table whose entries lie in the documented band. -/
theorem c9_zero_alpha_maps_color_to_zero
    (noise : Nat → Nat) (hn : ∀ n, 984 ≤ noise n ∧ noise n ≤ 31784)
    (t : List Px) (i : Nat) (h : i < t.length)
    (h2 : i < (tile_convert_rgba16_to_rgba8 noise t).length)
    (ha : (t.get ⟨i, h⟩).a = 0) :
    ((tile_convert_rgba16_to_rgba8 noise t).get ⟨i, h2⟩).r = 0 ∧
    ((tile_convert_rgba16_to_rgba8 noise t).get ⟨i, h2⟩).g = 0 ∧
    ((tile_convert_rgba16_to_rgba8 noise t).get ⟨i, h2⟩).b = 0 := by
  have hget : (tile_convert_rgba16_to_rgba8 noise t).get ⟨i, h2⟩ =
      pix16to8 (noise (2*i)) (noise (2*i + 1)) (t.get ⟨i, h⟩) := by
    have h3 := conv16to8Go_getElem? noise 0 t i
    simp only [tile_convert_rgba16_to_rgba8] at h2 ⊢
    rw [List.getElem?_eq_getElem h2, List.getElem?_eq_getElem h] at h3
    simp only [Option.map_some'] at h3
    have h4 := Option.some.inj h3
    simpa [List.get_eq_getElem] using h4
  rw [hget]
  unfold pix16to8
  rw [ha]
  have hc := hn (2*i)
  simp only [ne_eq, not_true_eq_false, if_false, Nat.zero_mul]
  refine ⟨?_, ?_, ?_⟩ <;> · exact Nat.div_eq_of_lt (by omega)

theorem c9_zero_alpha_maps_color_to_zero_witness :
    ((tile_convert_rgba16_to_rgba8 (fun _ => 1000) [⟨5, 6, 7, 0⟩]).get ⟨0, by decide⟩).r = 0 ∧
    ((tile_convert_rgba16_to_rgba8 (fun _ => 1000) [⟨5, 6, 7, 0⟩]).get ⟨0, by decide⟩).g = 0 ∧
    ((tile_convert_rgba16_to_rgba8 (fun _ => 1000) [⟨5, 6, 7, 0⟩]).get ⟨0, by decide⟩).b = 0 :=
  c9_zero_alpha_maps_color_to_zero (fun _ => 1000)
    (fun _ => ⟨by norm_num, by norm_num⟩) [⟨5, 6, 7, 0⟩] 0 (by decide) (by decide) rfl

theorem flat2rgbaPix_alpha (d bgp : Px) :
    (flat2rgbaPix d bgp).a = flat2rgbaAlpha d bgp := by
  unfold flat2rgbaPix
  by_cases h : 0 < flat2rgbaAlpha d bgp
  · simp only [h, if_pos]
  · simp only [h, if_neg, not_false_iff]

/-- C4: `tile_flat2rgba` sets each pixel's resulting alpha to the
maximum of the three per-channel minimal-alpha requirements and the
pixel's pre-existing alpha; in particular the alpha never decreases. -/
theorem c4_unflatten_alpha_is_max
    (dst bg : List Px)
    (hd : ∀ p ∈ dst, p.r ≤ 32768 ∧ p.g ≤ 32768 ∧ p.b ≤ 32768 ∧ p.a ≤ 32768)
    (hb : ∀ p ∈ bg, p.r ≤ 32768 ∧ p.g ≤ 32768 ∧ p.b ≤ 32768)
    (i : Nat) (h : i < dst.length) (hg : i < bg.length)
    (h2 : i < (tile_flat2rgba dst bg).length) :
    ((tile_flat2rgba dst bg).get ⟨i, h2⟩).a =
      max (max (max (minAlphaReq (dst.get ⟨i, h⟩).r (bg.get ⟨i, hg⟩).r)
                    (minAlphaReq (dst.get ⟨i, h⟩).g (bg.get ⟨i, hg⟩).g))
               (minAlphaReq (dst.get ⟨i, h⟩).b (bg.get ⟨i, hg⟩).b))
          (dst.get ⟨i, h⟩).a ∧
    (dst.get ⟨i, h⟩).a ≤ ((tile_flat2rgba dst bg).get ⟨i, h2⟩).a := by
  have hget : (tile_flat2rgba dst bg).get ⟨i, h2⟩ =
      flat2rgbaPix (dst.get ⟨i, h⟩) (bg.get ⟨i, hg⟩) := by
    simp [tile_flat2rgba, List.get_eq_getElem, List.getElem_zipWith]
  rw [hget, flat2rgbaPix_alpha]
  simp only [flat2rgbaAlpha]
  constructor <;> omega

theorem c4_unflatten_alpha_is_max_witness :
    ((tile_flat2rgba [⟨100, 200, 300, 400⟩] [⟨500, 600, 700, 0⟩]).get ⟨0, by decide⟩).a =
      max (max (max (minAlphaReq 100 500) (minAlphaReq 200 600)) (minAlphaReq 300 700)) 400 ∧
    400 ≤ ((tile_flat2rgba [⟨100, 200, 300, 400⟩] [⟨500, 600, 700, 0⟩]).get ⟨0, by decide⟩).a :=
  c4_unflatten_alpha_is_max [⟨100, 200, 300, 400⟩] [⟨500, 600, 700, 0⟩]
    (by intro p hp; simp at hp; subst hp; refine ⟨by norm_num, by norm_num, by norm_num, by norm_num⟩)
    (by intro p hp; simp at hp; subst hp; refine ⟨by norm_num, by norm_num, by norm_num⟩)
    0 (by decide) (by decide) (by decide)

/-- Arithmetic core of the round trip: back-solving the flattened channel
`R + (1-A)*B` (rounded) against the background channel `B` with the
original alpha `A` recovers `R` or `R - 1` (clamped at 0). -/
theorem backsolveWithinOne (R A B : Nat) (hR : R ≤ A) (hA : A ≤ 32768)
    (hB : B ≤ 32768) :
    (clampC (((B * A / 32768 : Nat) : Int) +
        ((R + (32768 - A) * B / 32768 : Nat) : Int) - (B : Int)) 0 (A : Int)).toNat ≤ R ∧
    R ≤ (clampC (((B * A / 32768 : Nat) : Int) +
        ((R + (32768 - A) * B / 32768 : Nat) : Int) - (B : Int)) 0 (A : Int)).toNat + 1 := by
  have h2 : (32768 - A) * B = 32768 * B - A * B := Nat.sub_mul 32768 A B
  have h3 : B * A = A * B := Nat.mul_comm B A
  have e : A * B ≤ 32768 * B := Nat.mul_le_mul_right B hA
  rw [h2, h3]
  simp only [clampC]
  split_ifs <;> omega

/-- Per-pixel round trip bound: if flattening then unflattening a
premultiplied pixel over the same background leaves the alpha unchanged
(no per-channel alpha requirement exceeded it), each premultiplied color
channel is recovered to within 1 (the value is `orig` or `orig - 1`,
clamped at 0). -/
theorem roundtripPix_color_within_one (d bgp : Px)
    (hr : d.r ≤ d.a) (hg : d.g ≤ d.a) (hb : d.b ≤ d.a) (ha : d.a ≤ 32768)
    (hbr : bgp.r ≤ 32768) (hbg : bgp.g ≤ 32768) (hbb : bgp.b ≤ 32768)
    (hfa : (flat2rgbaPix (rgba2flatPix d bgp) bgp).a = d.a) :
    ((flat2rgbaPix (rgba2flatPix d bgp) bgp).r ≤ d.r ∧
      d.r ≤ (flat2rgbaPix (rgba2flatPix d bgp) bgp).r + 1) ∧
    ((flat2rgbaPix (rgba2flatPix d bgp) bgp).g ≤ d.g ∧
      d.g ≤ (flat2rgbaPix (rgba2flatPix d bgp) bgp).g + 1) ∧
    ((flat2rgbaPix (rgba2flatPix d bgp) bgp).b ≤ d.b ∧
      d.b ≤ (flat2rgbaPix (rgba2flatPix d bgp) bgp).b + 1) := by
  rw [flat2rgbaPix_alpha] at hfa
  by_cases hz : flat2rgbaAlpha (rgba2flatPix d bgp) bgp = 0
  · rw [hz] at hfa
    rw [flat2rgbaPix.eq_def, hz, if_neg (lt_irrefl 0)]
    dsimp only
    omega
  · have hpos : 0 < flat2rgbaAlpha (rgba2flatPix d bgp) bgp := Nat.pos_of_ne_zero hz
    have hpos2 : 0 < d.a := hfa ▸ hpos
    rw [flat2rgbaPix.eq_def, hfa, if_pos hpos2]
    simp only [rgba2flatPix, fix15_one]
    exact ⟨backsolveWithinOne d.r d.a bgp.r hr ha hbr,
           backsolveWithinOne d.g d.a bgp.g hg ha hbg,
           backsolveWithinOne d.b d.a bgp.b hb ha hbb⟩

/-- C5 counterexample: take the premultiplied pixel `(0, 1, 0, 1)` over
the background `(3, 32768, 0)`.  Flatten rounds the red channel down,
unflatten must then raise alpha to 10922 to explain the red deviation,
and the green channel — exact on the background — is re-premultiplied
with the inflated alpha: the round trip returns green 10922 instead of
the original premultiplied 1, a deviation of 10921, far beyond any
rounding tolerance.  This refutes the claim as stated. -/
theorem c5_flatten_unflatten_counterexample :
    ((tile_flat2rgba (tile_rgba2flat [⟨0, 1, 0, 1⟩] [⟨3, 32768, 0, 0⟩])
        [⟨3, 32768, 0, 0⟩]).get ⟨0, by decide⟩).g = 1 + 10921 := by
  decide

/-- C5 amended: flatten-then-unflatten with the same background (all
channels in range, tile premultiplied) recovers every premultiplied
color channel to within 1 at each pixel **where the round trip leaves
the alpha unchanged** (equivalently, no per-channel minimal-alpha
requirement of the flattened pixel exceeds the pre-existing alpha).
Where alpha is inflated the premultiplied channels can deviate
arbitrarily (only the flattened appearance is preserved), as the
counterexample shows. -/
theorem c5_flatten_unflatten_amended
    (dst bg : List Px)
    (hd : ∀ p ∈ dst, p.r ≤ p.a ∧ p.g ≤ p.a ∧ p.b ≤ p.a ∧ p.a ≤ 32768)
    (hb : ∀ p ∈ bg, p.r ≤ 32768 ∧ p.g ≤ 32768 ∧ p.b ≤ 32768)
    (i : Nat) (h : i < dst.length) (hig : i < bg.length)
    (h2 : i < (tile_flat2rgba (tile_rgba2flat dst bg) bg).length)
    (hfa : ((tile_flat2rgba (tile_rgba2flat dst bg) bg).get ⟨i, h2⟩).a =
      (dst.get ⟨i, h⟩).a) :
    (((tile_flat2rgba (tile_rgba2flat dst bg) bg).get ⟨i, h2⟩).r ≤ (dst.get ⟨i, h⟩).r ∧
      (dst.get ⟨i, h⟩).r ≤ ((tile_flat2rgba (tile_rgba2flat dst bg) bg).get ⟨i, h2⟩).r + 1) ∧
    (((tile_flat2rgba (tile_rgba2flat dst bg) bg).get ⟨i, h2⟩).g ≤ (dst.get ⟨i, h⟩).g ∧
      (dst.get ⟨i, h⟩).g ≤ ((tile_flat2rgba (tile_rgba2flat dst bg) bg).get ⟨i, h2⟩).g + 1) ∧
    (((tile_flat2rgba (tile_rgba2flat dst bg) bg).get ⟨i, h2⟩).b ≤ (dst.get ⟨i, h⟩).b ∧
      (dst.get ⟨i, h⟩).b ≤ ((tile_flat2rgba (tile_rgba2flat dst bg) bg).get ⟨i, h2⟩).b + 1) := by
  have hget : (tile_flat2rgba (tile_rgba2flat dst bg) bg).get ⟨i, h2⟩ =
      flat2rgbaPix (rgba2flatPix (dst.get ⟨i, h⟩) (bg.get ⟨i, hig⟩)) (bg.get ⟨i, hig⟩) := by
    simp [tile_flat2rgba, tile_rgba2flat, List.get_eq_getElem, List.getElem_zipWith]
  rw [hget] at hfa ⊢
  obtain ⟨h1, h2', h3, h4⟩ := hd _ (List.get_mem dst i h)
  obtain ⟨h5, h6, h7⟩ := hb _ (List.get_mem bg i hig)
  exact roundtripPix_color_within_one _ _ h1 h2' h3 h4 h5 h6 h7 hfa

theorem c5_flatten_unflatten_amended_witness :
    (((tile_flat2rgba (tile_rgba2flat [⟨100, 200, 300, 400⟩] [⟨500, 600, 700, 0⟩])
        [⟨500, 600, 700, 0⟩]).get ⟨0, by decide⟩).r ≤ 100 ∧
      100 ≤ ((tile_flat2rgba (tile_rgba2flat [⟨100, 200, 300, 400⟩] [⟨500, 600, 700, 0⟩])
        [⟨500, 600, 700, 0⟩]).get ⟨0, by decide⟩).r + 1) ∧
    (((tile_flat2rgba (tile_rgba2flat [⟨100, 200, 300, 400⟩] [⟨500, 600, 700, 0⟩])
        [⟨500, 600, 700, 0⟩]).get ⟨0, by decide⟩).g ≤ 200 ∧
      200 ≤ ((tile_flat2rgba (tile_rgba2flat [⟨100, 200, 300, 400⟩] [⟨500, 600, 700, 0⟩])
        [⟨500, 600, 700, 0⟩]).get ⟨0, by decide⟩).g + 1) ∧
    (((tile_flat2rgba (tile_rgba2flat [⟨100, 200, 300, 400⟩] [⟨500, 600, 700, 0⟩])
        [⟨500, 600, 700, 0⟩]).get ⟨0, by decide⟩).b ≤ 300 ∧
      300 ≤ ((tile_flat2rgba (tile_rgba2flat [⟨100, 200, 300, 400⟩] [⟨500, 600, 700, 0⟩])
        [⟨500, 600, 700, 0⟩]).get ⟨0, by decide⟩).b + 1) :=
  c5_flatten_unflatten_amended [⟨100, 200, 300, 400⟩] [⟨500, 600, 700, 0⟩]
    (by intro p hp; simp at hp; subst hp;
        exact ⟨by norm_num, by norm_num, by norm_num, by norm_num⟩)
    (by intro p hp; simp at hp; subst hp; exact ⟨by norm_num, by norm_num, by norm_num⟩)
    0 (by decide) (by decide) (by decide) (by decide)

/-- The 16-bit value reaching the final 8-bit division for a color
channel of the round trip 8-bit -> 16-bit -> 8-bit, already multiplied
by 255: quantize `c8` to 15 bits with rounding, premultiply by the
quantized alpha with rounding, un-premultiply with rounding.  (Defined
for a nonzero quantized alpha, which `37 ≤ a8` guarantees.) -/
def chanNum (c8 a8 : Nat) : Nat :=
  let c15 := (c8 * 32768 + 127) / 255
  let a15 := (a8 * 32768 + 127) / 255
  let cp := (c15 * a15 + 16384) / 32768
  ((cp * 32768 + a15 / 2) / a15) * 255

/-- For the round trip to reproduce `c8` for every dithering noise value
in the documented band `[984, 31784]`, the channel numerator must lie
within `[c8*32768 - 984, (c8+1)*32768 - 31785]`. -/
def chanCheck (c8 a8 : Nat) : Bool :=
  decide (c8 * 32768 ≤ chanNum c8 a8 + 984) &&
  decide (chanNum c8 a8 + 31784 < (c8 + 1) * 32768)

set_option maxRecDepth 8192 in
set_option maxHeartbeats 4000000 in
theorem chanCheck_all : ((List.range 256).all fun c8 =>
    (List.range 219).all fun j => chanCheck c8 (j + 37)) = true := by
  rfl

theorem chanBounds (c8 a8 : Nat) (hc : c8 < 256) (h37 : 37 ≤ a8) (ha : a8 ≤ 255) :
    c8 * 32768 ≤ chanNum c8 a8 + 984 ∧
    chanNum c8 a8 + 31784 < (c8 + 1) * 32768 := by
  have H := chanCheck_all
  rw [List.all_eq_true] at H
  have H1 := H c8 (List.mem_range.mpr hc)
  rw [List.all_eq_true] at H1
  have H2 := H1 (a8 - 37) (List.mem_range.mpr (by omega))
  have e : a8 - 37 + 37 = a8 := by omega
  rw [e] at H2
  simpa [chanCheck, Bool.and_eq_true, decide_eq_true_eq] using H2

theorem div_eq_of_band (c8 num add : Nat) (h1 : c8 * 32768 ≤ num + 984)
    (h2 : num + 31784 < (c8 + 1) * 32768) (ha1 : 984 ≤ add) (ha2 : add ≤ 31784) :
    (num + add) / 32768 = c8 := by omega

theorem alphaBounds (a8 : Nat) :
    a8 * 32768 ≤ ((a8 * 32768 + 127) / 255) * 255 + 984 ∧
    ((a8 * 32768 + 127) / 255) * 255 + 31784 < (a8 + 1) * 32768 := by omega

/-- Round trip of one 8-bit pixel through the 16-bit working encoding and
back, with any noise pair from the documented band: the identity whenever
the 8-bit alpha is at least 37. -/
theorem pixRoundtrip (p : Px) (hr : p.r ≤ 255) (hg : p.g ≤ 255) (hb : p.b ≤ 255)
    (ha : p.a ≤ 255) (h37 : 37 ≤ p.a) (addc adda : Nat)
    (hc1 : 984 ≤ addc) (hc2 : addc ≤ 31784) (ha1 : 984 ≤ adda) (ha2 : adda ≤ 31784) :
    pix16to8 addc adda (pix8to16 p) = p := by
  obtain ⟨r, g, b, a⟩ := p
  dsimp only at hr hg hb ha h37
  have hne : (a * 32768 + 127) / 255 ≠ 0 := by omega
  have hR := chanBounds r a (by omega) h37 ha
  have hG := chanBounds g a (by omega) h37 ha
  have hB := chanBounds b a (by omega) h37 ha
  have hA := alphaBounds a
  simp only [pix8to16, pix16to8, Px.mk.injEq]
  rw [if_pos hne, if_pos hne, if_pos hne]
  refine ⟨?_, ?_, ?_, ?_⟩
  · exact div_eq_of_band r (chanNum r a) addc hR.1 hR.2 hc1 hc2
  · exact div_eq_of_band g (chanNum g a) addc hG.1 hG.2 hc1 hc2
  · exact div_eq_of_band b (chanNum b a) addc hB.1 hB.2 hc1 hc2
  · exact div_eq_of_band a (((a * 32768 + 127) / 255) * 255) adda hA.1 hA.2 ha1 ha2

/-- C6: converting an 8-bit straight-alpha tile to the 16-bit
premultiplied working encoding and back reproduces the original 8-bit
pixel exactly at every pixel whose alpha is not near zero (precisely:
8-bit alpha at least 37), for every noise table with entries in the
documented band `[0.03*32768, 0.97*32768]`. -/
theorem c6_roundtrip_8_16_8
    (noise : Nat → Nat) (hn : ∀ n, 984 ≤ noise n ∧ noise n ≤ 31784)
    (t : List Px)
    (hq : ∀ p ∈ t, p.r ≤ 255 ∧ p.g ≤ 255 ∧ p.b ≤ 255 ∧ p.a ≤ 255)
    (i : Nat) (h : i < t.length)
    (h2 : i < (tile_convert_rgba16_to_rgba8 noise (tile_convert_rgba8_to_rgba16 t)).length)
    (h37 : 37 ≤ (t.get ⟨i, h⟩).a) :
    (tile_convert_rgba16_to_rgba8 noise (tile_convert_rgba8_to_rgba16 t)).get ⟨i, h2⟩ =
      t.get ⟨i, h⟩ := by
  have hm : i < (tile_convert_rgba8_to_rgba16 t).length := by
    simpa [tile_convert_rgba8_to_rgba16] using h
  have hget : (tile_convert_rgba16_to_rgba8 noise (tile_convert_rgba8_to_rgba16 t)).get ⟨i, h2⟩ =
      pix16to8 (noise (2*i)) (noise (2*i + 1)) (pix8to16 (t.get ⟨i, h⟩)) := by
    have h3 := conv16to8Go_getElem? noise 0 (tile_convert_rgba8_to_rgba16 t) i
    simp only [tile_convert_rgba16_to_rgba8] at h2 ⊢
    rw [List.getElem?_eq_getElem h2] at h3
    simp only [tile_convert_rgba8_to_rgba16] at h3 hm
    rw [List.getElem?_map, List.getElem?_eq_getElem h] at h3
    simp only [Option.map_some'] at h3
    have h4 := Option.some.inj h3
    simpa [List.get_eq_getElem, tile_convert_rgba8_to_rgba16] using h4
  rw [hget]
  obtain ⟨q1, q2, q3, q4⟩ := hq _ (List.get_mem t i h)
  exact pixRoundtrip _ q1 q2 q3 q4 h37 _ _
    (hn (2*i)).1 (hn (2*i)).2 (hn (2*i + 1)).1 (hn (2*i + 1)).2

theorem c6_roundtrip_8_16_8_witness :
    (tile_convert_rgba16_to_rgba8 (fun _ => 984)
        (tile_convert_rgba8_to_rgba16 [⟨0, 128, 255, 37⟩])).get ⟨0, by decide⟩ =
      (⟨0, 128, 255, 37⟩ : Px) :=
  c6_roundtrip_8_16_8 (fun _ => 984) (fun _ => ⟨by norm_num, by norm_num⟩)
    [⟨0, 128, 255, 37⟩]
    (by intro p hp; simp at hp; subst hp;
        exact ⟨by norm_num, by norm_num, by norm_num, by norm_num⟩)
    0 (by decide) (by decide) (by decide)

theorem rleTraverse_nil (f : Nat → List Nat → List Nat)
    (hf : ∀ m, f m [] = []) : ∀ mask, rleTraverse f mask [] = []
  | [] => rfl
  | 0 :: [] => rfl
  | 0 :: 0 :: _ => rfl
  | 0 :: (s+1) :: rest => by
      simp [rleTraverse, rleTraverse_nil f hf rest]
  | (m+1) :: rest => by
      simp [rleTraverse, hf, rleTraverse_nil f hf rest]

theorem rleTraverse_length (f : Nat → List Nat → List Nat)
    (hf : ∀ m px, (f m px).length = px.length) :
    ∀ mask rgba, (rleTraverse f mask rgba).length = rgba.length := by
  intro mask rgba
  induction mask, rgba using rleTraverse.induct f with
  | case1 rgba => rfl
  | case2 rgba => rfl
  | case3 rest rgba => rfl
  | case4 s rest rgba ih =>
      simp only [rleTraverse, List.length_append, List.length_take, hf, ih,
        List.length_drop]
      omega
  | case5 m rest rgba ih =>
      simp only [rleTraverse, List.length_append, List.length_take, hf, ih,
        List.length_drop]
      omega

theorem lockAlphaPix_length (cr cg cb op m : Nat) (px : List Nat) :
    (lockAlphaPix cr cg cb op m px).length = px.length := by
  rcases px with _ | ⟨r, _ | ⟨g, _ | ⟨b, _ | ⟨a, _ | ⟨x, t⟩⟩⟩⟩⟩ <;> rfl

theorem rle_lock_idx3 (cr cg cb op : Nat) (mask rgba : List Nat) :
    maskAligned mask = true → ∀ i, i % 4 = 3 →
      (rleTraverse (lockAlphaPix cr cg cb op) mask rgba)[i]? = rgba[i]? := by
  induction mask, rgba using rleTraverse.induct (lockAlphaPix cr cg cb op) with
  | case1 rgba => intro _ i _; rfl
  | case2 rgba => intro _ i _; rfl
  | case3 rest rgba => intro _ i _; rfl
  | case4 s rest rgba ih =>
      intro halign i hi
      have h4 : (s+1) % 4 = 0 ∧ maskAligned rest = true := by
        simpa [maskAligned, Bool.and_eq_true] using halign
      simp only [rleTraverse]
      by_cases hbig : rgba.length ≤ i
      · rw [List.getElem?_eq_none hbig, List.getElem?_eq_none]
        simp only [List.length_append, List.length_take,
          rleTraverse_length _ (lockAlphaPix_length cr cg cb op), List.length_drop]
        omega
      · push_neg at hbig
        by_cases hc1 : i < s + 1
        · rw [List.getElem?_append_left (by simp [List.length_take]; omega),
              List.getElem?_take_of_lt hc1]
        · rw [List.getElem?_append_right (by simp [List.length_take]; omega)]
          have hmin : (rgba.take (s+1)).length = s + 1 := by
            simp [List.length_take]; omega
          rw [hmin, ih h4.2 (i - (s+1)) (by omega), List.getElem?_drop]
          congr 1
          omega
  | case5 m rest rgba ih =>
      intro halign i hi
      have hrest : maskAligned rest = true := by
        simpa [maskAligned] using halign
      simp only [rleTraverse]
      by_cases hbig : rgba.length ≤ i
      · rw [List.getElem?_eq_none hbig, List.getElem?_eq_none]
        simp only [List.length_append,
          rleTraverse_length _ (lockAlphaPix_length cr cg cb op),
          lockAlphaPix_length, List.length_take, List.length_drop]
        omega
      · push_neg at hbig
        rcases rgba with _ | ⟨r, _ | ⟨g, _ | ⟨b, _ | ⟨a, t⟩⟩⟩⟩
        · simp at hbig
        · simp at hbig; omega
        · simp at hbig; omega
        · simp at hbig; omega
        · have htake : (r::g::b::a::t).take 4 = [r, g, b, a] := rfl
          have hdrop : (r::g::b::a::t).drop 4 = t := rfl
          rw [htake, hdrop]
          rw [hdrop] at ih
          by_cases h3 : i = 3
          · subst h3
            simp [lockAlphaPix]
          · obtain ⟨j, rfl⟩ : ∃ j, i = j + 4 := ⟨i - 4, by omega⟩
            have hlen4 : (lockAlphaPix cr cg cb op (m+1) [r, g, b, a]).length = 4 := rfl
            rw [List.getElem?_append_right (by rw [hlen4]; omega), hlen4]
            have e : j + 4 - 4 = j := by omega
            rw [e, ih hrest j (by omega)]
            rw [(by omega : j + 4 = (j + 3) + 1), List.getElem?_cons_succ,
                (by omega : j + 3 = (j + 2) + 1), List.getElem?_cons_succ,
                (by omega : j + 2 = (j + 1) + 1), List.getElem?_cons_succ,
                List.getElem?_cons_succ]

/-- C3: the lock-alpha dab leaves the alpha cell of every destination
pixel unchanged, for every RLE mask (well-formed per the spec's mask
model: each skip advances whole pixels), destination tile, paint color
and opacity.  Alpha cells are the buffer positions `i` with
`i % 4 = 3`. -/
theorem c3_lockalpha_preserves_alpha (mask rgba : List Nat)
    (color_r color_g color_b opacity : Nat)
    (halign : maskAligned mask = true) (i : Nat) (hi : i % 4 = 3) :
    (draw_dab_pixels_BlendMode_LockAlpha mask rgba
        color_r color_g color_b opacity)[i]? = rgba[i]? :=
  rle_lock_idx3 color_r color_g color_b opacity mask rgba halign i hi

theorem c3_lockalpha_preserves_alpha_witness :
    (draw_dab_pixels_BlendMode_LockAlpha [1, 0, 4, 2, 0, 0]
        [10, 20, 30, 40, 50, 60, 70, 80] 5 6 7 32768)[3]? =
      [10, 20, 30, 40, 50, 60, 70, 80][3]? :=
  c3_lockalpha_preserves_alpha [1, 0, 4, 2, 0, 0]
    [10, 20, 30, 40, 50, 60, 70, 80] 5 6 7 32768 (by decide) 3 (by decide)

theorem tileInv_append : ∀ u v : List Nat, tileInv u = true → tileInv v = true →
    tileInv (u ++ v) = true
  | [], v, _, hv => by simpa
  | [x], _, hu, _ => by simp [tileInv] at hu
  | [x, y], _, hu, _ => by simp [tileInv] at hu
  | [x, y, z], _, hu, _ => by simp [tileInv] at hu
  | r :: g :: b :: a :: t, v, hu, hv => by
      have h : (r ≤ a ∧ g ≤ a ∧ b ≤ a ∧ a ≤ fix15_one) ∧ tileInv t = true := by
        simpa [tileInv, Bool.and_eq_true, decide_eq_true_eq, and_assoc] using hu
      have ht := tileInv_append t v h.2 hv
      simp only [List.cons_append]
      simp [tileInv, Bool.and_eq_true, decide_eq_true_eq, h.1, ht]

theorem tileInv_take_drop : ∀ (k : Nat) (l : List Nat), tileInv l = true →
    tileInv (l.take (4 * k)) = true ∧ tileInv (l.drop (4 * k)) = true := by
  intro k
  induction k with
  | zero =>
      intro l h
      constructor
      · simp [tileInv]
      · simpa using h
  | succ k ih =>
      intro l h
      rcases l with _ | ⟨r, _ | ⟨g, _ | ⟨b, _ | ⟨a, t⟩⟩⟩⟩
      · simp [tileInv]
      · simp [tileInv] at h
      · simp [tileInv] at h
      · simp [tileInv] at h
      · have hh : (r ≤ a ∧ g ≤ a ∧ b ≤ a ∧ a ≤ fix15_one) ∧ tileInv t = true := by
          simpa [tileInv, Bool.and_eq_true, decide_eq_true_eq, and_assoc] using h
        rw [(by omega : 4 * (k + 1) = 4 * k + 3 + 1),
            List.take_succ_cons, List.drop_succ_cons,
            (by omega : 4 * k + 3 = 4 * k + 2 + 1),
            List.take_succ_cons, List.drop_succ_cons,
            (by omega : 4 * k + 2 = 4 * k + 1 + 1),
            List.take_succ_cons, List.drop_succ_cons,
            List.take_succ_cons, List.drop_succ_cons]
        refine ⟨?_, (ih t hh.2).2⟩
        simp [tileInv, Bool.and_eq_true, decide_eq_true_eq, hh.1, (ih t hh.2).1]

theorem normalPix_bounds (cr cg cb op m r g b a : Nat)
    (hcr : cr ≤ 32768) (hcg : cg ≤ 32768) (hcb : cb ≤ 32768)
    (hop : op ≤ 32768) (hm : m ≤ 32768)
    (hra : r ≤ a) (hga : g ≤ a) (hba : b ≤ a) (ha : a ≤ 32768) :
    ((m * op / 32768 * cr + (32768 - m * op / 32768) * r) / 32768 ≤
      m * op / 32768 + (32768 - m * op / 32768) * a / 32768) ∧
    ((m * op / 32768 * cg + (32768 - m * op / 32768) * g) / 32768 ≤
      m * op / 32768 + (32768 - m * op / 32768) * a / 32768) ∧
    ((m * op / 32768 * cb + (32768 - m * op / 32768) * b) / 32768 ≤
      m * op / 32768 + (32768 - m * op / 32768) * a / 32768) ∧
    m * op / 32768 + (32768 - m * op / 32768) * a / 32768 ≤ 32768 := by
  have h1 : m * op / 32768 ≤ 32768 := by
    calc m * op / 32768 ≤ 32768 * 32768 / 32768 :=
          Nat.div_le_div_right (Nat.mul_le_mul hm hop)
    _ = 32768 := by norm_num
  have hchan : ∀ c x : Nat, c ≤ 32768 → x ≤ a →
      (m * op / 32768 * c + (32768 - m * op / 32768) * x) / 32768 ≤
        m * op / 32768 + (32768 - m * op / 32768) * a / 32768 := by
    intro c x hc hx
    have k1 : m * op / 32768 * c + (32768 - m * op / 32768) * x ≤
        m * op / 32768 * 32768 + (32768 - m * op / 32768) * a :=
      Nat.add_le_add (Nat.mul_le_mul (le_refl _) hc) (Nat.mul_le_mul (le_refl _) hx)
    calc (m * op / 32768 * c + (32768 - m * op / 32768) * x) / 32768 ≤
        (m * op / 32768 * 32768 + (32768 - m * op / 32768) * a) / 32768 :=
          Nat.div_le_div_right k1
    _ = m * op / 32768 + (32768 - m * op / 32768) * a / 32768 := by
          rw [Nat.mul_comm (m * op / 32768) 32768, Nat.mul_add_div (by norm_num)]
  have hA : m * op / 32768 + (32768 - m * op / 32768) * a / 32768 ≤ 32768 := by
    have k3 : (32768 - m * op / 32768) * a / 32768 ≤ 32768 - m * op / 32768 := by
      calc (32768 - m * op / 32768) * a / 32768 ≤
          (32768 - m * op / 32768) * 32768 / 32768 :=
            Nat.div_le_div_right (Nat.mul_le_mul (le_refl _) ha)
      _ = 32768 - m * op / 32768 := Nat.mul_div_cancel _ (by norm_num)
    omega
  exact ⟨hchan cr r hcr hra, hchan cg g hcg hga, hchan cb b hcb hba, hA⟩

theorem rle_normal_inv (cr cg cb op : Nat)
    (hcr : cr ≤ 32768) (hcg : cg ≤ 32768) (hcb : cb ≤ 32768) (hop : op ≤ 32768)
    (mask rgba : List Nat) :
    (∀ x ∈ mask, x ≤ 32768) → maskAligned mask = true → tileInv rgba = true →
    tileInv (rleTraverse (normalPix cr cg cb op) mask rgba) = true := by
  induction mask, rgba using rleTraverse.induct (normalPix cr cg cb op) with
  | case1 rgba => intro _ _ h; simpa [rleTraverse] using h
  | case2 rgba => intro _ _ h; simpa [rleTraverse] using h
  | case3 rest rgba => intro _ _ h; simpa [rleTraverse] using h
  | case4 s rest rgba ih =>
      intro hmem halign hinv
      have h4 : (s + 1) % 4 = 0 ∧ maskAligned rest = true := by
        simpa [maskAligned, Bool.and_eq_true] using halign
      obtain ⟨k, hk⟩ : ∃ k, s + 1 = 4 * k := ⟨(s + 1) / 4, by omega⟩
      have htd := tileInv_take_drop k rgba hinv
      simp only [rleTraverse]
      rw [hk]
      apply tileInv_append _ _ htd.1
      rw [hk] at ih
      exact ih (fun x hx => hmem x (List.mem_cons_of_mem _ (List.mem_cons_of_mem _ hx)))
        h4.2 htd.2
  | case5 m rest rgba ih =>
      intro hmem halign hinv
      have hrest : maskAligned rest = true := by simpa [maskAligned] using halign
      have hm : m + 1 ≤ 32768 := hmem _ (List.mem_cons_self _ _)
      have hmemr : ∀ x ∈ rest, x ≤ 32768 := fun x hx => hmem x (List.mem_cons_of_mem _ hx)
      simp only [rleTraverse]
      rcases rgba with _ | ⟨r, _ | ⟨g, _ | ⟨b, _ | ⟨a, t⟩⟩⟩⟩
      · rw [show ([] : List Nat).take 4 = [] from rfl,
            show ([] : List Nat).drop 4 = [] from rfl,
            show normalPix cr cg cb op (m + 1) [] = [] from rfl,
            rleTraverse_nil _ (fun _ => rfl)]
        rfl
      · simp [tileInv] at hinv
      · simp [tileInv] at hinv
      · simp [tileInv] at hinv
      · obtain ⟨q0, q5⟩ : (r ≤ a ∧ g ≤ a ∧ b ≤ a ∧ a ≤ fix15_one) ∧ tileInv t = true := by
          simpa [tileInv, Bool.and_eq_true, decide_eq_true_eq, and_assoc] using hinv
        rw [show (r::g::b::a::t).take 4 = [r, g, b, a] from rfl,
            show (r::g::b::a::t).drop 4 = t from rfl]
        rw [show (r::g::b::a::t).drop 4 = t from rfl] at ih
        have hrec := ih hmemr hrest q5
        obtain ⟨w1, w2, w3, w4⟩ := normalPix_bounds cr cg cb op (m + 1) r g b a
          hcr hcg hcb hop hm q0.1 q0.2.1 q0.2.2.1 (by simpa [fix15_one] using q0.2.2.2)
        simp only [normalPix, fix15_one, List.cons_append, List.nil_append]
        simp only [tileInv, fix15_one, Bool.and_eq_true, decide_eq_true_eq]
        exact ⟨⟨⟨⟨w1, w2⟩, w3⟩, w4⟩, hrec⟩

/-- C10: the normal dab preserves the working-encoding invariant
`R,G,B ≤ A ≤ 32768` at every pixel, for every RLE mask with entries in
`[0, 32768]` (well-formed per the spec's mask model: each skip advances
whole pixels), opacity and paint color in `[0, 32768]`, and destination
tile satisfying the invariant. -/
theorem c10_normal_preserves_invariant (mask rgba : List Nat)
    (color_r color_g color_b opacity : Nat)
    (hmask : ∀ x ∈ mask, x ≤ 32768) (halign : maskAligned mask = true)
    (hcr : color_r ≤ 32768) (hcg : color_g ≤ 32768) (hcb : color_b ≤ 32768)
    (hop : opacity ≤ 32768) (hinv : tileInv rgba = true) :
    tileInv (draw_dab_pixels_BlendMode_Normal mask rgba
      color_r color_g color_b opacity) = true :=
  rle_normal_inv color_r color_g color_b opacity hcr hcg hcb hop mask rgba
    hmask halign hinv

theorem c10_normal_preserves_invariant_witness :
    tileInv (draw_dab_pixels_BlendMode_Normal [32768, 0, 8, 2, 0, 0]
      [10, 20, 30, 40, 1, 2, 3, 4, 100, 200, 300, 400] 32768 16384 0 32768) = true :=
  c10_normal_preserves_invariant [32768, 0, 8, 2, 0, 0]
    [10, 20, 30, 40, 1, 2, 3, 4, 100, 200, 300, 400] 32768 16384 0 32768
    (by decide) (by decide) (by decide) (by decide) (by decide) (by decide) (by decide)

end MyPaintCore
